import Mathlib

/-!
# Verification of the plane-cli request-construction helpers

A shallow embedding of the pure helper functions of `src/main.rs`
(path-template resolution, base-URL splitting, URL joining, query-pair
parsing, body-source resolution, and path-parameter collection), together
with proofs of the behavioural properties claimed for them.

Strings are modelled as Lean `String`s (lists of characters); the Rust
byte/index manipulations are rendered as structural recursion over the
character list.  Environment lookups and CLI argument lookups are passed
in explicitly as `Option`-valued maps.
-/

namespace PlaneCli

/-- Whether the first list is a prefix of the second
(mirrors `str::starts_with` on character lists). -/
def isPrefixList : List Char → List Char → Bool
  | [], _ => true
  | _ :: _, [] => false
  | a :: as, b :: bs => a = b && isPrefixList as bs

/-- Index of the first occurrence of the pattern `pat` as a contiguous
substring (mirrors Rust `str::find` with a string pattern). -/
def findSubstrIdx (pat : List Char) : List Char → Option Nat
  | [] => if isPrefixList pat [] then some 0 else none
  | c :: cs =>
    if isPrefixList pat (c :: cs) then some 0
    else (findSubstrIdx pat cs).map (· + 1)

/-- Index of the first occurrence of the character `c`
(mirrors `find_byte` in `main.rs`). -/
def findCharIdx (c : Char) : List Char → Option Nat
  | [] => none
  | x :: xs => if x = c then some 0 else (findCharIdx c xs).map (· + 1)

/-- Split at the first occurrence of the character `c`: returns the part
before and the part after it (the separator removed), or `none` when `c`
does not occur.  This is the slicing that `find_byte` + index arithmetic
performs in `main.rs`, and the `splitn(2, _)` split of `parse_query_pair`. -/
def splitAtChar (c : Char) : List Char → Option (List Char × List Char)
  | [] => none
  | x :: xs =>
    if x = c then some ([], xs)
    else (splitAtChar c xs).map (fun p => (x :: p.1, p.2))

/-- All fields of a Rust `str::split(sep)` split on a single character:
`splitChar c "a:b" = ["a", "b"]`, `splitChar c "" = [""]`. -/
def splitChar (c : Char) : List Char → List (List Char)
  | [] => [[]]
  | x :: xs =>
    if x = c then [] :: splitChar c xs
    else
      match splitChar c xs with
      | [] => [[x]]
      | p :: ps => (x :: p) :: ps

/-- Drop every leading occurrence of `c` (mirrors `str::trim_start_matches`). -/
def trimStartChar (c : Char) (cs : List Char) : List Char :=
  cs.dropWhile (· = c)

/-- Drop every trailing occurrence of `c` (mirrors `str::trim_end_matches`). -/
def trimEndChar (c : Char) (cs : List Char) : List Char :=
  (cs.reverse.dropWhile (· = c)).reverse

/-- Drop leading and trailing whitespace (mirrors `str::trim`). -/
def trimList (cs : List Char) : List Char :=
  ((cs.dropWhile Char.isWhitespace).reverse.dropWhile Char.isWhitespace).reverse

/-! ## Path template resolution (`build_path` in `main.rs`) -/

/-- The lookup key derived from a placeholder token:
`token.split(':').nth(1).unwrap_or(token)` in `main.rs`.
The second `:`-separated field when the token contains a `:`,
the whole token otherwise. -/
def tokenKey (token : List Char) : List Char :=
  ((splitChar ':' token).get? 1).getD token

/-- Scanner state of `build_path`: `none` while copying literal text,
`some acc` while inside a `<...>` token with `acc` the characters read
so far.  The Rust loop (`find_byte '<'`, then `find_byte '>'`, substitute,
advance the cursor) is rendered as this character-by-character state
machine; an unterminated token is the `find_byte '>' = None` case. -/
def buildPathGo (params : List (String × String)) :
    Option (List Char) → List Char → Except String (List Char)
  | none, [] => .ok []
  | some _, [] => .error "invalid path template"
  | none, c :: cs =>
    if c = '<' then buildPathGo params (some []) cs
    else (buildPathGo params none cs).map (c :: ·)
  | some acc, c :: cs =>
    if c = '>' then
      match List.lookup (String.mk (tokenKey acc)) params with
      | none => .error ("missing value for " ++ String.mk (tokenKey acc))
      | some v => (buildPathGo params none cs).map (fun t => v.data ++ t)
    else buildPathGo params (some (acc ++ [c])) cs

/-- Rust `build_path` from `main.rs`: substitute every `<...>` token of the
template by the bound value of its key. -/
def build_path (template : String) (params : List (String × String)) :
    Except String String :=
  (buildPathGo params none template.data).map String.mk

/-! ## URL joining (`join_url` in `main.rs`) -/

/-- Rust `join_url` from `main.rs`. -/
def join_url (base base_path path : String) : String :=
  let b := trimEndChar '/' base.data
  let bp := trimEndChar '/' (trimStartChar '/' base_path.data)
  let p := trimStartChar '/' path.data
  if bp = [] then ⟨b ++ '/' :: p⟩
  else if p = [] then ⟨b ++ '/' :: bp⟩
  else ⟨b ++ '/' :: bp ++ '/' :: p⟩

/-! ## Base-URL splitting (`split_base_url` in `main.rs`) -/

/-- Rust `split_base_url` from `main.rs`: split a combined override URL into
origin and base path. -/
def split_base_url (base_url default_path : String) :
    Except String (String × String) :=
  let trimmed := trimEndChar '/' (trimList base_url.data)
  if trimmed = [] then .error "PLANE_BASE_URL empty"
  else
    match findSubstrIdx "://".data trimmed with
    | none => .error "PLANE_BASE_URL must include scheme"
    | some scheme_idx =>
      let path_idx := (findCharIdx '/' (trimmed.drop (scheme_idx + 3))).map (· + (scheme_idx + 3))
      let api_url :=
        match path_idx with
        | some idx => trimmed.take idx
        | none => trimmed
      let base_path :=
        match path_idx with
        | some idx =>
          let path := trimmed.drop idx
          let path := if path = [] then default_path.data else path
          if path.head? = some '/' then path else '/' :: path
        | none => default_path.data
      .ok (⟨api_url⟩, ⟨base_path⟩)

/-! ## Query parameters (`parse_query_pair`, `build_query_params`) -/

/-- Rust `parse_query_pair` from `main.rs`: split on the first `=`, trim both
sides, and insist both are non-empty. -/
def parse_query_pair (input : String) : Except String (String × String) :=
  let kv :=
    match splitAtChar '=' input.data with
    | none => (input.data, [])
    | some (k, v) => (k, v)
  let key := trimList kv.1
  let value := trimList kv.2
  if key = [] || value = [] then .error ("invalid query param: " ++ input)
  else .ok (⟨key⟩, ⟨value⟩)

/-- The query-collection loop (`for value in values`, propagating the
first `parse_query_pair` error) of
`build_query_params`. -/
def collectQueryPairs : List String → Except String (List (String × String))
  | [] => .ok []
  | q :: rest =>
    match parse_query_pair q with
    | .error e => .error e
    | .ok kv =>
      match collectQueryPairs rest with
      | .error e => .error e
      | .ok l => .ok (kv :: l)

/-- Rust `build_query_params` from `main.rs`: explicit `--query` pairs first,
then `fields`, each `expand`, `per_page`, `cursor`. -/
def build_query_params (query : List String) (fields : Option String)
    (expand : List String) (perPage cursor : Option String) :
    Except String (List (String × String)) :=
  match collectQueryPairs query with
  | .error e => .error e
  | .ok pairs =>
    .ok (pairs
      ++ (match fields with | some f => [("fields", f)] | none => [])
      ++ expand.map (fun e => ("expand", e))
      ++ (match perPage with | some n => [("per_page", n)] | none => [])
      ++ (match cursor with | some c => [("cursor", c)] | none => []))

/-! ## Body resolution (`read_body` in `main.rs`)

JSON parsing and file reading are external effects; they are passed in as
explicit functions so that `read_body` remains the pure decision logic of
the source. -/

/-- Rust `read_body` from `main.rs`.  `parseJson` abstracts
`serde_json::from_str`, `readFile` abstracts `fs::read_to_string`. -/
def read_body {β : Type} (bodyJson bodyFile : Option String)
    (parseJson : String → Except String β)
    (readFile : String → Except String String) :
    Except String (Option β) :=
  if bodyJson.isSome && bodyFile.isSome then
    .error "use only one of --body-json or --body-file"
  else
    match bodyJson with
    | some raw =>
      match parseJson raw with
      | .ok v => .ok (some v)
      | .error _ => .error "invalid JSON body"
    | none =>
      match bodyFile with
      | some path =>
        match readFile path with
        | .error _ => .error "read body file"
        | .ok raw =>
          match parseJson raw with
          | .ok v => .ok (some v)
          | .error _ => .error "invalid JSON body file"
      | none => .ok none

/-! ## Path parameter collection (`collect_path_params`, `is_workspace_param`) -/

/-- Rust `Param` from `command_tree.rs`. -/
structure Param where
  name : String
  flag : String

/-- Rust `is_workspace_param` from `main.rs`. -/
def is_workspace_param (name : String) : Bool :=
  name == "slug" || name == "workspace" || name == "workspace_slug" ||
    name == "workspaceSlug"

/-- Rust `collect_path_params` from `main.rs`.  `cli` abstracts
`matches.get_one::<String>`, `envWs` abstracts `env::var("PLANE_WORKSPACE").ok()`. -/
def collect_path_params (cli : String → Option String) (envWs : Option String) :
    List Param → Except String (List (String × String))
  | [] => .ok []
  | p :: rest =>
    let value := cli p.name
    let value := if value.isNone && is_workspace_param p.name then envWs else value
    match value with
    | none => .error ("missing required argument --" ++ p.flag)
    | some v =>
      match collect_path_params cli envWs rest with
      | .error e => .error e
      | .ok m => .ok ((p.name, v) :: m)

/-! ## Specification-side notions

Declarative counterparts of the spec's wording, against which the source
embeddings above are compared. -/

/-- Spec 4.2: some `<` in the template is "never matched by a following
`>`": at some suffix split `c :: cs` the head is `<` and `cs` holds no
`>`. -/
def hasUnmatchedLt : List Char → Bool
  | [] => false
  | c :: cs => (c = '<' && !cs.contains '>') || hasUnmatchedLt cs

/-- Spec 4.2 token structure of a template: a template decomposes into a
sequence of chunks — literal text (free of `<`) followed by a `<...>`
token (free of `>`) — and trailing literal text.  Purely declarative;
the decomposition is unique when it exists. -/
inductive Chunked : List Char → List (List Char × List Char) → List Char → Prop
  | trail (t : List Char) (h : '<' ∉ t) : Chunked t [] t
  | cons (pre tok rest : List Char) (chunks : List (List Char × List Char))
      (trail : List Char) (hpre : '<' ∉ pre) (htok : '>' ∉ tok)
      (h : Chunked rest chunks trail) :
      Chunked (pre ++ '<' :: (tok ++ '>' :: rest)) ((pre, tok) :: chunks) trail

/-- Spec 4.2 resolution result for a decomposed template: non-token text
copied verbatim, each token replaced by the bound value of its key. -/
def renderChunks (params : List (String × String))
    (chunks : List (List Char × List Char)) (trail : List Char) : List Char :=
  (chunks.map
    (fun c => c.1 ++ ((List.lookup (String.mk (tokenKey c.2)) params).getD "").data)).flatten
    ++ trail

/-- Spec 4.2 lookup key of a token, as the spec words it for C1's
amendment: the part after the first `:` up to the next `:` when a `:`
occurs, the whole token otherwise. -/
def specTokenKey (token : List Char) : List Char :=
  match splitAtChar ':' token with
  | none => token
  | some (_, rest) => rest.takeWhile (· ≠ ':')

/-! ## Basic lemmas about the list utilities -/

theorem isPrefixList_iff (p l : List Char) :
    isPrefixList p l = true ↔ ∃ r, l = p ++ r := by
  induction p generalizing l with
  | nil =>
    simp only [isPrefixList, List.nil_append, true_iff]
    exact ⟨l, rfl⟩
  | cons a as ih =>
    cases l with
    | nil =>
      simp only [isPrefixList, Bool.false_eq_true, false_iff]
      rintro ⟨r, hr⟩
      exact List.cons_ne_nil _ _ hr.symm
    | cons b bs =>
      simp only [isPrefixList, Bool.and_eq_true, decide_eq_true_eq, ih]
      constructor
      · rintro ⟨rfl, r, rfl⟩
        exact ⟨r, rfl⟩
      · rintro ⟨r, hr⟩
        rw [List.cons_append] at hr
        injection hr with h1 h2
        exact ⟨h1.symm, r, h2⟩

theorem findSubstrIdx_eq_none_iff (p : List Char) (hp : p ≠ []) (l : List Char) :
    findSubstrIdx p l = none ↔ ¬ ∃ a b, l = a ++ p ++ b := by
  induction l with
  | nil =>
    have hpre : isPrefixList p [] = false := by
      cases p with
      | nil => exact absurd rfl hp
      | cons x xs => rfl
    simp only [findSubstrIdx, hpre, Bool.false_eq_true, if_false, true_iff]
    rintro ⟨a, b, hab⟩
    rcases List.append_eq_nil.mp ((List.append_eq_nil.mp hab.symm).1) with ⟨-, h2⟩
    exact hp h2
  | cons c cs ih =>
    by_cases hpre : isPrefixList p (c :: cs) = true
    · have hex : ∃ a b, c :: cs = a ++ p ++ b := by
        obtain ⟨r, hr⟩ := (isPrefixList_iff p (c :: cs)).mp hpre
        exact ⟨[], r, by simpa using hr⟩
      refine iff_of_false ?_ (not_not_intro hex)
      intro h
      rw [findSubstrIdx] at h
      simp [hpre] at h
    · have hstep : findSubstrIdx p (c :: cs) = (findSubstrIdx p cs).map (· + 1) := by
        rw [findSubstrIdx]
        simp [hpre]
      rw [hstep, Option.map_eq_none', ih]
      constructor
      · rintro h ⟨a, b, hab⟩
        cases a with
        | nil =>
          exact hpre ((isPrefixList_iff p (c :: cs)).mpr ⟨b, by simpa using hab⟩)
        | cons a0 as =>
          rw [List.cons_append, List.cons_append] at hab
          injection hab with h1 h2
          exact h ⟨as, b, h2⟩
      · rintro h ⟨a, b, hab⟩
        exact h ⟨c :: a, b, by simp [hab]⟩

theorem splitAtChar_eq_none_iff (c : Char) (l : List Char) :
    splitAtChar c l = none ↔ c ∉ l := by
  induction l with
  | nil => simp [splitAtChar]
  | cons x xs ih =>
    by_cases hx : x = c
    · subst hx; simp [splitAtChar]
    · simp [splitAtChar, hx, Option.map_eq_none', ih, Ne.symm hx]

theorem splitAtChar_eq_some (c : Char) (l a b : List Char)
    (h : splitAtChar c l = some (a, b)) : l = a ++ c :: b ∧ c ∉ a := by
  induction l generalizing a b with
  | nil => simp [splitAtChar] at h
  | cons x xs ih =>
    by_cases hx : x = c
    · subst hx
      simp only [splitAtChar, if_true, Option.some.injEq, Prod.mk.injEq] at h
      obtain ⟨rfl, rfl⟩ := h
      simp
    · simp only [splitAtChar, hx, if_false, Option.map_eq_some'] at h
      obtain ⟨⟨a', b'⟩, hsplit, heq⟩ := h
      simp only [Prod.mk.injEq] at heq
      obtain ⟨rfl, rfl⟩ := heq
      obtain ⟨hl, hna⟩ := ih _ _ hsplit
      refine ⟨by simp [hl], ?_⟩
      simp only [List.mem_cons, not_or]
      exact ⟨Ne.symm hx, hna⟩

theorem splitAtChar_append (c : Char) (a b : List Char) (ha : c ∉ a) :
    splitAtChar c (a ++ c :: b) = some (a, b) := by
  induction a with
  | nil => simp [splitAtChar]
  | cons x xs ih =>
    simp only [List.mem_cons, not_or] at ha
    simp [splitAtChar, Ne.symm ha.1, ha.1, ih ha.2]

theorem findCharIdx_eq_some (c : Char) (l : List Char) (j : Nat)
    (h : findCharIdx c l = some j) :
    ∃ pre rest, l = pre ++ c :: rest ∧ pre.length = j ∧ c ∉ pre := by
  induction l generalizing j with
  | nil => simp [findCharIdx] at h
  | cons x xs ih =>
    by_cases hx : x = c
    · subst hx
      simp only [findCharIdx, if_true, Option.some.injEq] at h
      exact ⟨[], xs, rfl, by simp [← h], by simp⟩
    · simp only [findCharIdx, hx, if_false, Option.map_eq_some'] at h
      obtain ⟨j', hj', rfl⟩ := h
      obtain ⟨pre, rest, rfl, hlen, hmem⟩ := ih _ hj'
      refine ⟨x :: pre, rest, rfl, by simp [hlen], ?_⟩
      simp only [List.mem_cons, not_or]
      exact ⟨Ne.symm hx, hmem⟩

theorem findCharIdx_eq_none_iff (c : Char) (l : List Char) :
    findCharIdx c l = none ↔ c ∉ l := by
  induction l with
  | nil => simp [findCharIdx]
  | cons x xs ih =>
    by_cases hx : x = c
    · subst hx; simp [findCharIdx]
    · simp [findCharIdx, hx, Option.map_eq_none', ih, Ne.symm hx]

theorem except_map_isOk {ε α β : Type} (f : α → β) (e : Except ε α) :
    (e.map f).isOk = e.isOk := by
  cases e <;> rfl

theorem except_map_eq_error {ε α β : Type} (f : α → β) (e : Except ε α) (msg : ε) :
    e.map f = .error msg ↔ e = .error msg := by
  cases e <;> simp [Except.map]

theorem except_map_eq_ok {ε α β : Type} (f : α → β) (e : Except ε α) (b : β) :
    e.map f = .ok b ↔ ∃ a, e = .ok a ∧ f a = b := by
  cases e <;> simp [Except.map]

theorem except_isOk_iff_exists {ε α : Type} (e : Except ε α) :
    e.isOk = true ↔ ∃ a, e = .ok a := by
  cases e <;> simp [Except.isOk, Except.toBool]

theorem except_not_isOk_iff_exists {ε α : Type} (e : Except ε α) :
    e.isOk = false ↔ ∃ msg, e = .error msg := by
  cases e <;> simp [Except.isOk, Except.toBool]

theorem dropWhile_head_false {p : Char → Bool} {l : List Char} {x : Char}
    {xs : List Char} (h : l.dropWhile p = x :: xs) : p x = false := by
  induction l with
  | nil => simp [List.dropWhile] at h
  | cons c cs ih =>
    by_cases hc : p c = true
    · rw [List.dropWhile_cons_of_pos hc] at h
      exact ih h
    · rw [List.dropWhile_cons_of_neg hc] at h
      injection h with h1 _
      rw [← h1]
      exact Bool.eq_false_iff.mpr hc

theorem dropWhile_head?_false {p : Char → Bool} {l : List Char} {x : Char}
    (h : (l.dropWhile p).head? = some x) : p x = false := by
  cases hl : l.dropWhile p with
  | nil => rw [hl] at h; simp at h
  | cons y ys =>
    rw [hl] at h
    simp only [List.head?_cons, Option.some.injEq] at h
    exact h ▸ dropWhile_head_false hl

theorem dropWhile_self {p : Char → Bool} {l : List Char}
    (h : ∀ x, l.head? = some x → p x = false) : l.dropWhile p = l := by
  cases l with
  | nil => rfl
  | cons c cs =>
    rw [List.dropWhile_cons_of_neg]
    simp [h c rfl]

/-- The head of a trimmed list is not whitespace. -/
theorem trimList_head?_not_ws {l : List Char} {x : Char}
    (h : (trimList l).head? = some x) : x.isWhitespace = false := by
  unfold trimList at h
  rw [List.head?_reverse] at h
  have hne : (l.dropWhile Char.isWhitespace).reverse.dropWhile Char.isWhitespace ≠ [] := by
    intro hnil
    rw [hnil] at h
    simp at h
  obtain ⟨pre, hpre⟩ :=
    List.dropWhile_suffix (l := (l.dropWhile Char.isWhitespace).reverse)
      (p := Char.isWhitespace)
  have hgl : ((l.dropWhile Char.isWhitespace).reverse.dropWhile
      Char.isWhitespace).getLast? = (l.dropWhile Char.isWhitespace).head? := by
    conv_rhs => rw [← List.getLast?_reverse, ← hpre,
      List.getLast?_append_of_ne_nil _ hne]
  rw [hgl] at h
  exact dropWhile_head?_false h

/-- The last element of a trimmed list is not whitespace. -/
theorem trimList_getLast?_not_ws {l : List Char} {x : Char}
    (h : (trimList l).getLast? = some x) : x.isWhitespace = false := by
  unfold trimList at h
  rw [List.getLast?_reverse] at h
  exact dropWhile_head?_false h

/-- Trimming is idempotent: a trimmed list has no surrounding whitespace
left to trim. -/
theorem trimList_idem (l : List Char) : trimList (trimList l) = trimList l := by
  have h1 : (trimList l).dropWhile Char.isWhitespace = trimList l :=
    dropWhile_self (fun x hx => trimList_head?_not_ws hx)
  have h2 : (trimList l).reverse.dropWhile Char.isWhitespace = (trimList l).reverse := by
    refine dropWhile_self (fun x hx => ?_)
    rw [List.head?_reverse] at hx
    exact trimList_getLast?_not_ws hx
  show ((((trimList l).dropWhile Char.isWhitespace).reverse.dropWhile
      Char.isWhitespace)).reverse = trimList l
  rw [h1, h2, List.reverse_reverse]

/-! ## The malformed-template predicate and the chunk decomposition -/

theorem contains_iff (c : Char) (l : List Char) : l.contains c = true ↔ c ∈ l :=
  List.elem_iff

theorem no_lt_no_unmatched {t : List Char} (h : '<' ∉ t) :
    hasUnmatchedLt t = false := by
  induction t with
  | nil => rfl
  | cons c cs ih =>
    simp only [List.mem_cons, not_or] at h
    simp only [hasUnmatchedLt, Bool.or_eq_false_iff, Bool.and_eq_false_iff]
    refine ⟨Or.inl ?_, ih h.2⟩
    simp only [decide_eq_false_iff_not]
    exact fun hc => h.1 hc.symm

theorem unmatched_of_no_gt (pre rest : List Char) (h : '>' ∉ rest) :
    hasUnmatchedLt (pre ++ '<' :: rest) = true := by
  induction pre with
  | nil =>
    have hcont : rest.contains '>' = false := by
      rw [← Bool.not_eq_true, contains_iff]
      exact h
    show hasUnmatchedLt ('<' :: rest) = true
    rw [hasUnmatchedLt, hcont]
    simp
  | cons c cs ih =>
    show hasUnmatchedLt (c :: (cs ++ '<' :: rest)) = true
    rw [hasUnmatchedLt, ih]
    simp

theorem hasUnmatchedLt_append (l r : List Char) (h : '>' ∈ r) :
    hasUnmatchedLt (l ++ r) = hasUnmatchedLt r := by
  induction l with
  | nil => rfl
  | cons c cs ih =>
    have hcont : (cs ++ r).contains '>' = true := by
      rw [contains_iff]
      exact List.mem_append_right _ h
    show hasUnmatchedLt (c :: (cs ++ r)) = hasUnmatchedLt r
    rw [hasUnmatchedLt, hcont, ih]
    simp

theorem chunked_not_unmatched {t : List Char} {ch : List (List Char × List Char)}
    {tr : List Char} (h : Chunked t ch tr) : hasUnmatchedLt t = false := by
  induction h with
  | trail t h => exact no_lt_no_unmatched h
  | cons pre tok rest chunks trail hpre htok hc ih =>
    have hassoc : pre ++ '<' :: (tok ++ '>' :: rest) =
        (pre ++ '<' :: tok) ++ '>' :: rest := by simp
    rw [hassoc, hasUnmatchedLt_append _ _ (List.mem_cons_self _ _)]
    have hne : decide (('>' : Char) = '<') = false := rfl
    rw [hasUnmatchedLt, hne]
    simpa using ih

theorem chunked_exists : ∀ (n : Nat) (t : List Char), t.length ≤ n →
    hasUnmatchedLt t = false → ∃ ch tr, Chunked t ch tr := by
  intro n
  induction n with
  | zero =>
    intro t hlen _
    have : t = [] := List.eq_nil_of_length_eq_zero (Nat.le_zero.mp hlen)
    subst this
    exact ⟨[], [], Chunked.trail [] (by simp)⟩
  | succ n ih =>
    intro t hlen h
    cases hsplit : splitAtChar '<' t with
    | none =>
      exact ⟨[], t, Chunked.trail t ((splitAtChar_eq_none_iff _ _).mp hsplit)⟩
    | some p =>
      obtain ⟨pre, rest⟩ := p
      obtain ⟨heq, hpre⟩ := splitAtChar_eq_some _ _ _ _ hsplit
      have hgt : '>' ∈ rest := by
        by_contra hng
        rw [heq, unmatched_of_no_gt pre rest hng] at h
        exact Bool.true_eq_false.mp h
      obtain ⟨tok, rest2, hsplit2⟩ :
          ∃ tok rest2, splitAtChar '>' rest = some (tok, rest2) := by
        cases h2 : splitAtChar '>' rest with
        | none => exact absurd ((splitAtChar_eq_none_iff _ _).mp h2) (not_not_intro hgt)
        | some q =>
          obtain ⟨t1, t2⟩ := q
          exact ⟨t1, t2, rfl⟩
      obtain ⟨heq2, htok⟩ := splitAtChar_eq_some _ _ _ _ hsplit2
      have hfalse2 : hasUnmatchedLt rest2 = false := by
        rw [heq, heq2] at h
        have hassoc : pre ++ '<' :: (tok ++ '>' :: rest2) =
            (pre ++ '<' :: tok) ++ '>' :: rest2 := by simp
        rw [hassoc, hasUnmatchedLt_append _ _ (List.mem_cons_self _ _)] at h
        have hne : decide (('>' : Char) = '<') = false := rfl
        rw [hasUnmatchedLt, hne] at h
        simpa using h
      have hlen2 : rest2.length ≤ n := by
        rw [heq, heq2] at hlen
        simp only [List.length_append, List.length_cons] at hlen
        omega
      obtain ⟨ch, tr, hc⟩ := ih rest2 hlen2 hfalse2
      refine ⟨(pre, tok) :: ch, tr, ?_⟩
      rw [heq, heq2]
      exact Chunked.cons pre tok rest2 ch tr hpre htok hc

theorem append_cancel_first (c : Char) :
    ∀ (a b x y : List Char), c ∉ a → c ∉ b → a ++ c :: x = b ++ c :: y →
      a = b ∧ x = y := by
  intro a
  induction a with
  | nil =>
    intro b x y _ hb heq
    cases b with
    | nil =>
      simp only [List.nil_append] at heq
      injection heq with _ h2
      exact ⟨rfl, h2⟩
    | cons b0 bs =>
      simp only [List.nil_append, List.cons_append] at heq
      injection heq with h1 _
      exact absurd (List.mem_cons.mpr (Or.inl h1)) hb
  | cons a0 as ih =>
    intro b x y ha hb heq
    simp only [List.mem_cons, not_or] at ha
    cases b with
    | nil =>
      simp only [List.nil_append, List.cons_append] at heq
      injection heq with h1 _
      exact absurd h1.symm ha.1
    | cons b0 bs =>
      simp only [List.cons_append] at heq
      injection heq with h1 h2
      simp only [List.mem_cons, not_or] at hb
      obtain ⟨hab, hxy⟩ := ih bs x y ha.2 hb.2 h2
      exact ⟨by rw [h1, hab], hxy⟩

theorem chunked_det : ∀ {t ch tr}, Chunked t ch tr →
    ∀ {t' ch' tr'}, Chunked t' ch' tr' → t = t' → ch = ch' ∧ tr = tr' := by
  intro t ch tr h1
  induction h1 with
  | trail t h =>
    intro t' ch' tr' h2 heq
    cases h2 with
    | trail t'' h'' => exact ⟨rfl, heq⟩
    | cons pre' tok' rest' chunks' trail' hpre' htok' hc' =>
      rw [heq] at h
      exact absurd (by simp : '<' ∈ pre' ++ '<' :: (tok' ++ '>' :: rest')) h
  | cons pre tok rest chunks trail hpre htok hc ih =>
    intro t' ch' tr' h2 heq
    cases h2 with
    | trail t'' h'' =>
      rw [← heq] at h''
      exact absurd (by simp : '<' ∈ pre ++ '<' :: (tok ++ '>' :: rest)) h''
    | cons pre' tok' rest' chunks' trail' hpre' htok' hc' =>
      obtain ⟨hp, hrest⟩ := append_cancel_first '<' pre pre' _ _ hpre hpre' heq
      obtain ⟨ht, hr⟩ := append_cancel_first '>' tok tok' _ _ htok htok' hrest
      obtain ⟨hch, htr⟩ := ih hc' hr
      exact ⟨by rw [hp, ht, hch], htr⟩

/-! ## Behaviour of the `build_path` scanner -/

theorem go_no_lt (params : List (String × String)) (cs : List Char)
    (h : '<' ∉ cs) : buildPathGo params none cs = .ok cs := by
  induction cs with
  | nil => rfl
  | cons c cs' ih =>
    simp only [List.mem_cons, not_or] at h
    rw [buildPathGo, if_neg (fun hc => h.1 hc.symm), ih h.2]
    rfl

theorem go_noclose (params : List (String × String)) (cs : List Char)
    (h : '>' ∉ cs) (acc : List Char) :
    buildPathGo params (some acc) cs = .error "invalid path template" := by
  induction cs generalizing acc with
  | nil => rfl
  | cons c cs' ih =>
    simp only [List.mem_cons, not_or] at h
    rw [buildPathGo, if_neg (fun hc => h.1 hc.symm)]
    exact ih h.2 _

theorem go_append_pre (params : List (String × String)) (pre rest : List Char)
    (h : '<' ∉ pre) :
    buildPathGo params none (pre ++ rest) =
      (buildPathGo params none rest).map (pre ++ ·) := by
  induction pre with
  | nil =>
    show buildPathGo params none rest = _
    cases buildPathGo params none rest <;> rfl
  | cons c pre' ih =>
    simp only [List.mem_cons, not_or] at h
    show buildPathGo params none (c :: (pre' ++ rest)) = _
    rw [buildPathGo, if_neg (fun hc => h.1 hc.symm), ih h.2]
    cases buildPathGo params none rest <;> rfl

theorem go_token (params : List (String × String)) (tok : List Char)
    (h : '>' ∉ tok) (acc rest : List Char) :
    buildPathGo params (some acc) (tok ++ '>' :: rest) =
      match List.lookup (String.mk (tokenKey (acc ++ tok))) params with
      | none => .error ("missing value for " ++ String.mk (tokenKey (acc ++ tok)))
      | some v => (buildPathGo params none rest).map (fun t => v.data ++ t) := by
  induction tok generalizing acc with
  | nil =>
    show buildPathGo params (some acc) ('>' :: rest) = _
    rw [buildPathGo, if_pos rfl]
    simp
  | cons c tok' ih =>
    simp only [List.mem_cons, not_or] at h
    show buildPathGo params (some acc) (c :: (tok' ++ '>' :: rest)) = _
    rw [buildPathGo, if_neg (fun hc => h.1 hc.symm), ih h.2 (acc ++ [c])]
    have hacc : acc ++ [c] ++ tok' = acc ++ c :: tok' := by simp
    rw [hacc]

theorem go_chunked (params : List (String × String)) {t : List Char}
    {ch : List (List Char × List Char)} {tr : List Char} (h : Chunked t ch tr) :
    buildPathGo params none t =
      match ch.find?
          (fun c => (List.lookup (String.mk (tokenKey c.2)) params).isNone) with
      | some c => .error ("missing value for " ++ String.mk (tokenKey c.2))
      | none => .ok (renderChunks params ch tr) := by
  induction h with
  | trail t h =>
    simp only [List.find?_nil]
    rw [go_no_lt params t h]
    simp [renderChunks]
  | cons pre tok rest chunks trail hpre htok hc ih =>
    rw [go_append_pre params pre _ hpre]
    have h1 : buildPathGo params none ('<' :: (tok ++ '>' :: rest)) =
        buildPathGo params (some []) (tok ++ '>' :: rest) := by
      rw [buildPathGo, if_pos rfl]
    rw [h1, go_token params tok htok [] rest]
    simp only [List.nil_append]
    cases hlk : List.lookup (String.mk (tokenKey tok)) params with
    | none =>
      rw [List.find?_cons_of_pos _ (by simp [hlk])]
      rfl
    | some v =>
      rw [List.find?_cons_of_neg _ (by simp [hlk])]
      rw [ih]
      cases hf : chunks.find?
          (fun c => (List.lookup (String.mk (tokenKey c.2)) params).isNone) with
      | some c => rfl
      | none =>
        show Except.ok (pre ++ (v.data ++ renderChunks params chunks trail)) = _
        simp [renderChunks, hlk]

theorem go_unmatched (params : List (String × String)) : ∀ cs : List Char,
    (hasUnmatchedLt cs = true → (buildPathGo params none cs).isOk = false) ∧
    (∀ acc, hasUnmatchedLt cs = true →
      (buildPathGo params (some acc) cs).isOk = false) := by
  intro cs
  induction cs with
  | nil =>
    refine ⟨fun h => by simp [hasUnmatchedLt] at h, fun acc _ => rfl⟩
  | cons c cs' ih =>
    have hsplit : hasUnmatchedLt (c :: cs') = true →
        (c = '<' ∧ '>' ∉ cs') ∨ hasUnmatchedLt cs' = true := by
      intro h
      rw [hasUnmatchedLt] at h
      rcases Bool.or_eq_true_iff.mp h with h1 | h2
      · rcases Bool.and_eq_true_iff.mp h1 with ⟨hd, hng⟩
        refine Or.inl ⟨of_decide_eq_true hd, fun hmem => ?_⟩
        rw [Bool.not_eq_true'] at hng
        exact absurd (((contains_iff '>' cs').mpr hmem).symm.trans hng) (by decide)
      · exact Or.inr h2
    constructor
    · intro h
      by_cases hc : c = '<'
      · subst hc
        rw [buildPathGo, if_pos rfl]
        rcases hsplit h with ⟨-, hng⟩ | hun
        · rw [go_noclose params cs' hng []]
          rfl
        · exact ih.2 [] hun
      · rcases hsplit h with ⟨hc', -⟩ | hun
        · exact absurd hc' hc
        · rw [buildPathGo, if_neg hc, except_map_isOk]
          exact ih.1 hun
    · intro acc h
      by_cases hc : c = '>'
      · subst hc
        have hun : hasUnmatchedLt cs' = true := by
          rcases hsplit h with ⟨hc', -⟩ | hun
          · exact absurd hc' (by decide)
          · exact hun
        rw [buildPathGo, if_pos rfl]
        cases hlk : List.lookup (String.mk (tokenKey acc)) params with
        | none => rfl
        | some v =>
          rw [except_map_isOk]
          exact ih.1 hun
      · rw [buildPathGo, if_neg hc]
        rcases hsplit h with ⟨-, hng⟩ | hun
        · rw [go_noclose params cs' hng (acc ++ [c])]
          rfl
        · exact ih.2 (acc ++ [c]) hun

/-! ## The token key -/

theorem splitChar_ne_nil (c : Char) (l : List Char) : splitChar c l ≠ [] := by
  cases l with
  | nil => simp [splitChar]
  | cons x xs =>
    by_cases hx : x = c
    · simp [splitChar, hx]
    · simp only [splitChar, hx, if_false]
      cases splitChar c xs <;> simp

theorem splitChar_no_sep (c : Char) (l : List Char) (h : c ∉ l) :
    splitChar c l = [l] := by
  induction l with
  | nil => rfl
  | cons x xs ih =>
    simp only [List.mem_cons, not_or] at h
    rw [splitChar, if_neg (fun hc => h.1 hc.symm), ih h.2]

theorem splitChar_head? (c : Char) (l : List Char) :
    (splitChar c l).head? = some (l.takeWhile (· ≠ c)) := by
  induction l with
  | nil => rfl
  | cons x xs ih =>
    by_cases hx : x = c
    · subst hx
      simp [splitChar, List.takeWhile]
    · simp only [splitChar, hx, if_false]
      cases hs : splitChar c xs with
      | nil => exact absurd hs (splitChar_ne_nil c xs)
      | cons p ps =>
        rw [hs] at ih
        simp only [List.head?_cons, Option.some.injEq] at ih
        simp [List.takeWhile, hx, ih]

theorem splitChar_append_sep (c : Char) (a rest : List Char) (h : c ∉ a) :
    splitChar c (a ++ c :: rest) = a :: splitChar c rest := by
  induction a with
  | nil => simp [splitChar]
  | cons x xs ih =>
    simp only [List.mem_cons, not_or] at h
    show splitChar c (x :: (xs ++ c :: rest)) = (x :: xs) :: splitChar c rest
    rw [splitChar, if_neg (fun hc => h.1 hc.symm), ih h.2]

/-- The key computed by `build_path` is, in the spec's words, the part of
the token after the first `:` up to the next `:` (the whole token when no
`:` occurs). -/
theorem tokenKey_eq_spec (tok : List Char) : tokenKey tok = specTokenKey tok := by
  unfold tokenKey specTokenKey
  cases hsp : splitAtChar ':' tok with
  | none =>
    have hni : ':' ∉ tok := (splitAtChar_eq_none_iff ':' tok).mp hsp
    rw [splitChar_no_sep ':' tok hni]
    rfl
  | some p =>
    obtain ⟨a, rest⟩ := p
    obtain ⟨heq, hna⟩ := splitAtChar_eq_some ':' tok a rest hsp
    rw [heq, splitChar_append_sep ':' a rest hna]
    have hhead := splitChar_head? ':' rest
    cases hs : splitChar ':' rest with
    | nil => exact absurd hs (splitChar_ne_nil ':' rest)
    | cons p ps =>
      rw [hs] at hhead
      simp only [List.head?_cons, Option.some.injEq] at hhead
      simp [hhead]

/-! ## Assoc-list lookup -/

theorem lookup_mem {α β : Type} [BEq α] [LawfulBEq α] {a : α} {v : β}
    {l : List (α × β)} (h : List.lookup a l = some v) : (a, v) ∈ l := by
  induction l with
  | nil => simp [List.lookup] at h
  | cons e es ih =>
    obtain ⟨k, w⟩ := e
    by_cases hk : (a == k) = true
    · simp only [List.lookup, hk] at h
      injection h with hv
      rw [eq_of_beq hk, hv]
      exact List.mem_cons_self _ _
    · have hk' : (a == k) = false := Bool.eq_false_iff.mpr hk
      simp only [List.lookup, hk'] at h
      exact List.mem_cons_of_mem _ (ih h)

/-- The literal pieces of a chunk decomposition hold no `<`. -/
theorem chunked_literals_no_lt {t : List Char} {ch : List (List Char × List Char)}
    {tr : List Char} (h : Chunked t ch tr) :
    (∀ c ∈ ch, '<' ∉ c.1) ∧ '<' ∉ tr := by
  induction h with
  | trail t h => exact ⟨by simp, h⟩
  | cons pre tok rest chunks trail hpre htok hc ih =>
    refine ⟨?_, ih.2⟩
    intro c hc'
    rcases List.mem_cons.mp hc' with rfl | hmem
    · exact hpre
    · exact ih.1 c hmem

/-! ## Claim C1 — the lookup key of a placeholder token -/

/-- Claim C1, counterexample:  The claim states that for a token with more
than one `:`, the lookup key is everything after the *first* `:`, so on
the template `<a:b:c>` the key would be `b:c`.  The code
(`token.split(':').nth(1)`) instead uses only the field between the first
and second `:`: with `b:c` bound (and `b` unbound) resolution fails asking
for `b`, and with `b` bound it succeeds. -/
theorem C1_counterexample :
    build_path "<a:b:c>" [("b", "X")] = .ok "X" ∧
    build_path "<a:b:c>" [("b:c", "Y")] = .error "missing value for b" :=
  ⟨rfl, rfl⟩

/-- Claim C1, amended:  The lookup key of a token is the substring after
the first `:` *up to the next `:`* (the second `:`-separated field) when
the token contains a `:`, and the whole token otherwise; `build_path`
resolves a single-token template by looking up exactly this key and
substituting its value (or failing with a missing-value error naming this
key). -/
theorem C1_build_path_key :
    (∀ tok : List Char, tokenKey tok = specTokenKey tok) ∧
    (∀ (tok : List Char) (params : List (String × String)), '>' ∉ tok →
      build_path ⟨'<' :: (tok ++ ['>'])⟩ params =
        match List.lookup (String.mk (specTokenKey tok)) params with
        | none => .error ("missing value for " ++ String.mk (specTokenKey tok))
        | some v => .ok v) := by
  refine ⟨tokenKey_eq_spec, ?_⟩
  intro tok params htok
  show (buildPathGo params none ('<' :: (tok ++ ['>']))).map String.mk = _
  rw [buildPathGo, if_pos rfl]
  have : (tok ++ ['>'] : List Char) = tok ++ '>' :: [] := rfl
  rw [this, go_token params tok htok [] [], List.nil_append, tokenKey_eq_spec]
  cases List.lookup (String.mk (specTokenKey tok)) params with
  | none => rfl
  | some v =>
    show Except.ok (String.mk (v.data ++ [])) = Except.ok v
    obtain ⟨d⟩ := v
    simp

/-- Claim C1, witness: -/
theorem C1_witness : build_path "<a:b:c>" [("b", "V")] = .ok "V" := by
  have h := C1_build_path_key.2 "a:b:c".data [("b", "V")] (by decide)
  have heq : (⟨'<' :: ("a:b:c".data ++ ['>'])⟩ : String) = "<a:b:c>" := rfl
  rw [heq] at h
  exact h.trans (by rfl)

/-! ## Claim C2 — residual delimiters in a resolved path -/

/-- Claim C2, counterexample:  The claim states every successful
`build_path` result has no `<` and no `>`.  A `>` with no preceding `<`
is literal text and is copied verbatim, and bound values are substituted
verbatim, so the result can contain both delimiters. -/
theorem C2_counterexample :
    build_path "a>b<x>" [("x", "<")] = .ok "a>b<" ∧
    '<' ∈ ("a>b<" : String).data ∧ '>' ∈ ("a>b<" : String).data :=
  ⟨rfl, by decide, by decide⟩

/-- Claim C2, amended:  When every bound value is free of `<`, a successful
`build_path` result contains zero `<` characters (every `<` of the
template is consumed as a token opener); `>` characters occurring in
literal text are copied verbatim and may remain. -/
theorem C2_no_residual_lt (t : String) (params : List (String × String))
    (hvals : ∀ kv ∈ params, '<' ∉ (kv.2 : String).data) :
    ∀ out, build_path t params = .ok out → '<' ∉ out.data := by
  intro out hout
  have hgo : buildPathGo params none t.data = .ok out.data := by
    have := (except_map_eq_ok String.mk (buildPathGo params none t.data) out).mp hout
    obtain ⟨l, hl, hmk⟩ := this
    rw [hl, ← hmk]
  have hum : hasUnmatchedLt t.data = false := by
    by_contra hum'
    have := (go_unmatched params t.data).1 (Bool.not_eq_false _ ▸ hum')
    rw [hgo] at this
    exact absurd this (by simp [Except.isOk, Except.toBool])
  obtain ⟨ch, tr, hch⟩ := chunked_exists t.data.length t.data le_rfl hum
  have hrender : out.data = renderChunks params ch tr := by
    have hgc := go_chunked params hch
    cases hf : ch.find?
        (fun c => (List.lookup (String.mk (tokenKey c.2)) params).isNone) with
    | some c =>
      rw [hf] at hgc
      rw [hgo] at hgc
      exact absurd hgc (by simp)
    | none =>
      rw [hf] at hgc
      rw [hgo] at hgc
      injection hgc
  rw [hrender]
  obtain ⟨hlit, htr⟩ := chunked_literals_no_lt hch
  intro hmem
  unfold renderChunks at hmem
  rcases List.mem_append.mp hmem with hflat | hin
  · obtain ⟨piece, hpiece, hcin⟩ := List.mem_flatten.mp hflat
    obtain ⟨c, hcch, hceq⟩ := List.mem_map.mp hpiece
    rw [← hceq] at hcin
    rcases List.mem_append.mp hcin with hpre | hval
    · exact hlit c hcch hpre
    · cases hlk : List.lookup (String.mk (tokenKey c.2)) params with
      | none => rw [hlk] at hval; simp at hval
      | some v =>
        rw [hlk] at hval
        exact hvals _ (lookup_mem hlk) hval
  · exact htr hin

/-- Claim C2, witness: -/
theorem C2_witness : '<' ∉ ("/a/7" : String).data :=
  C2_no_residual_lt "/a/<id>" [("id", "7")] (by decide) "/a/7" rfl

/-! ## Claim C3 — error characterization of `build_path` -/

/-- Claim C3:  `build_path` fails exactly when the template has a `<` with
no later `>` (malformed template), or when the template decomposes into
chunks and some token's lookup key is unbound; on a decomposed template
with every key bound it returns the literal text verbatim with each token
replaced by the bound value of its key, and when the template is well
formed every error is a missing-value error naming the unbound key. -/
theorem C3_build_path_error_iff (t : String) (params : List (String × String)) :
    ((build_path t params).isOk = false ↔
      (hasUnmatchedLt t.data = true ∨
        ∃ ch tr, Chunked t.data ch tr ∧
          ∃ c ∈ ch, List.lookup (String.mk (tokenKey c.2)) params = none))
    ∧ (∀ ch tr, Chunked t.data ch tr →
        (∀ c ∈ ch, (List.lookup (String.mk (tokenKey c.2)) params).isSome = true) →
        build_path t params = .ok ⟨renderChunks params ch tr⟩)
    ∧ (hasUnmatchedLt t.data = false →
        ∀ e, build_path t params = .error e →
          ∃ ch tr, Chunked t.data ch tr ∧ ∃ c ∈ ch,
            List.lookup (String.mk (tokenKey c.2)) params = none ∧
            e = "missing value for " ++ String.mk (tokenKey c.2)) := by
  have hunfold : build_path t params = (buildPathGo params none t.data).map String.mk := rfl
  refine ⟨⟨?_, ?_⟩, ?_, ?_⟩
  · -- error implies malformed or missing key
    intro herr
    by_cases hum : hasUnmatchedLt t.data = true
    · exact Or.inl hum
    have hum' : hasUnmatchedLt t.data = false := Bool.eq_false_iff.mpr hum
    obtain ⟨ch, tr, hch⟩ := chunked_exists t.data.length t.data le_rfl hum'
    refine Or.inr ⟨ch, tr, hch, ?_⟩
    by_contra hno
    push_neg at hno
    have hfind : ch.find?
        (fun c => (List.lookup (String.mk (tokenKey c.2)) params).isNone) = none := by
      rw [List.find?_eq_none]
      intro c hc
      cases hlk : List.lookup (String.mk (tokenKey c.2)) params with
      | none => exact absurd hlk (hno c hc)
      | some v => simp [hlk]
    have hgc := go_chunked params hch
    rw [hfind] at hgc
    rw [hunfold, hgc] at herr
    simp [Except.isOk, Except.toBool, Except.map] at herr
  · -- malformed or missing key implies error
    rintro (hum | ⟨ch, tr, hch, c, hc, hlk⟩)
    · rw [hunfold, except_map_isOk]
      exact (go_unmatched params t.data).1 hum
    · have hfind : (ch.find?
          (fun c => (List.lookup (String.mk (tokenKey c.2)) params).isNone)).isSome := by
        rw [List.find?_isSome]
        exact ⟨c, hc, by simp [hlk]⟩
      obtain ⟨c', hc'⟩ := Option.isSome_iff_exists.mp hfind
      have hgc := go_chunked params hch
      rw [hc'] at hgc
      rw [hunfold, hgc]
      rfl
  · -- success on a fully bound decomposition
    intro ch tr hch hkeys
    have hfind : ch.find?
        (fun c => (List.lookup (String.mk (tokenKey c.2)) params).isNone) = none := by
      rw [List.find?_eq_none]
      intro c hc
      have := hkeys c hc
      cases hlk : List.lookup (String.mk (tokenKey c.2)) params with
      | none => rw [hlk] at this; simp at this
      | some v => simp [hlk]
    have hgc := go_chunked params hch
    rw [hfind] at hgc
    rw [hunfold, hgc]
    rfl
  · -- well-formed errors are missing-value errors naming the key
    intro hum e herr
    obtain ⟨ch, tr, hch⟩ := chunked_exists t.data.length t.data le_rfl hum
    have hgc := go_chunked params hch
    cases hf : ch.find?
        (fun c => (List.lookup (String.mk (tokenKey c.2)) params).isNone) with
    | none =>
      rw [hf] at hgc
      rw [hunfold, hgc] at herr
      exact absurd herr (by simp [Except.map])
    | some c =>
      rw [hf] at hgc
      rw [hunfold, hgc] at herr
      have hmem := List.mem_of_find?_eq_some hf
      have hpred := List.find?_some hf
      have hlk : List.lookup (String.mk (tokenKey c.2)) params = none := by
        cases hlk' : List.lookup (String.mk (tokenKey c.2)) params with
        | none => rfl
        | some v => rw [hlk'] at hpred; simp at hpred
      refine ⟨ch, tr, hch, c, hmem, hlk, ?_⟩
      simp only [Except.map] at herr
      injection herr with he
      exact he.symm

/-- Claim C3, witness: -/
theorem C3_witness : build_path "/a/<id>/b" [("id", "7")] = .ok "/a/7/b" := by
  have hch : Chunked ("/a/".data ++ '<' :: ("id".data ++ '>' :: "/b".data))
      [("/a/".data, "id".data)] "/b".data :=
    Chunked.cons _ _ _ _ _ (by decide) (by decide) (Chunked.trail _ (by decide))
  have heq : "/a/<id>/b".data = "/a/".data ++ '<' :: ("id".data ++ '>' :: "/b".data) := rfl
  have h := (C3_build_path_error_iff "/a/<id>/b" [("id", "7")]).2.1
      [("/a/".data, "id".data)] "/b".data (by rw [heq]; exact hch) (by decide)
  exact h.trans (by rfl)

/-! ## Claim C5 — error conditions of `split_base_url` -/

/-- Claim C5, counterexample:  The claim states a missing-scheme failure
happens exactly when the combined override contains no `://`.  But the
override `"https://"` contains `://`, yet `split_base_url` trims the
trailing slashes *first*, leaving `"https:"`, and fails with the
missing-scheme error. -/
theorem C5_counterexample :
    split_base_url "https://" "/api/v1" = .error "PLANE_BASE_URL must include scheme" ∧
    ∃ a b, "https://".data = a ++ "://".data ++ b :=
  ⟨rfl, "https".data, [], by decide⟩

/-- Claim C5, amended:  `split_base_url` fails with the empty-override
error exactly when the override, after trimming whitespace and trailing
`/`, is empty; it fails with the missing-scheme error exactly when the
trimmed override is non-empty and contains no `://` substring; and it
succeeds on all other inputs. -/
theorem C5_split_base_url_errors (url dflt : String) :
    (split_base_url url dflt = .error "PLANE_BASE_URL empty" ↔
      trimEndChar '/' (trimList url.data) = [])
    ∧ (split_base_url url dflt = .error "PLANE_BASE_URL must include scheme" ↔
      (trimEndChar '/' (trimList url.data) ≠ [] ∧
        ¬ ∃ a b, trimEndChar '/' (trimList url.data) = a ++ "://".data ++ b))
    ∧ ((∃ v, split_base_url url dflt = .ok v) ↔
      (trimEndChar '/' (trimList url.data) ≠ [] ∧
        ∃ a b, trimEndChar '/' (trimList url.data) = a ++ "://".data ++ b)) := by
  have hmsgne : ("PLANE_BASE_URL empty" : String) ≠ "PLANE_BASE_URL must include scheme" := by
    decide
  by_cases ht : trimEndChar '/' (trimList url.data) = []
  · have hval : split_base_url url dflt = .error "PLANE_BASE_URL empty" := by
      simp only [split_base_url]
      rw [if_pos ht]
    refine ⟨iff_of_true hval ht, iff_of_false ?_ ?_, iff_of_false ?_ ?_⟩
    · intro hcontr
      rw [hval] at hcontr
      injection hcontr with hmsg
      exact hmsgne hmsg
    · rintro ⟨hne, -⟩
      exact hne ht
    · rintro ⟨v, hv⟩
      rw [hval] at hv
      exact Except.noConfusion hv
    · rintro ⟨hne, -⟩
      exact hne ht
  · cases hf : findSubstrIdx "://".data (trimEndChar '/' (trimList url.data)) with
    | none =>
      have hval : split_base_url url dflt = .error "PLANE_BASE_URL must include scheme" := by
        simp only [split_base_url]
        rw [if_neg ht, hf]
      have hnosub := (findSubstrIdx_eq_none_iff "://".data (by decide) _).mp hf
      refine ⟨iff_of_false ?_ ht, iff_of_true hval ⟨ht, hnosub⟩, iff_of_false ?_ ?_⟩
      · intro hcontr
        rw [hval] at hcontr
        injection hcontr with hmsg
        exact hmsgne hmsg.symm
      · rintro ⟨v, hv⟩
        rw [hval] at hv
        exact Except.noConfusion hv
      · rintro ⟨-, hsub⟩
        exact hnosub hsub
    | some i =>
      have hsub : ∃ a b, trimEndChar '/' (trimList url.data) = a ++ "://".data ++ b := by
        by_contra hno
        rw [← findSubstrIdx_eq_none_iff "://".data (by decide) _] at hno
        rw [hf] at hno
        exact Option.noConfusion hno
      have hval : ∃ v, split_base_url url dflt = .ok v := by
        simp only [split_base_url]
        rw [if_neg ht, hf]
        exact ⟨_, rfl⟩
      obtain ⟨v, hv⟩ := hval
      refine ⟨iff_of_false ?_ ht, iff_of_false ?_ ?_, iff_of_true ⟨v, hv⟩ ⟨ht, hsub⟩⟩
      · intro hcontr
        rw [hv] at hcontr
        exact Except.noConfusion hcontr
      · intro hcontr
        rw [hv] at hcontr
        exact Except.noConfusion hcontr
      · rintro ⟨-, hno⟩
        exact hno hsub

/-! ## Claim C4 — origin/path split of a combined override URL -/

/-- Claim C4, counterexample:  On the override `"https://example.com/"`
with default base path `"api"`, the first `/` after the scheme separator
is the final character, so the claim predicts origin
`"https://example.com"` with slash-prefixed path `"/"`.  The code trims
the trailing `/` before splitting, finds no `/` after the scheme, and
returns the default `"api"` verbatim, which does not start with `/`. -/
theorem C4_counterexample :
    split_base_url "https://example.com/" "api" = .ok ("https://example.com", "api") ∧
    ("api" : String).data.head? ≠ some '/' :=
  ⟨rfl, by decide⟩

/-- Claim C4, amended:  After trimming whitespace and trailing `/` from the
override: when a `/` occurs after the first `://` of the trimmed
override, the origin is everything before that first `/` and the path is
everything from it onward (hence slash-prefixed); when no `/` follows,
the origin is the whole trimmed override and the path is the default
base path, used verbatim.  The two concrete examples of the claim hold
as stated. -/
theorem C4_split_base_url_split (url dflt : String) :
    (∀ i, findSubstrIdx "://".data (trimEndChar '/' (trimList url.data)) = some i →
      (∀ j, findCharIdx '/' ((trimEndChar '/' (trimList url.data)).drop (i + 3)) = some j →
        split_base_url url dflt =
          .ok (⟨(trimEndChar '/' (trimList url.data)).take (j + (i + 3))⟩,
               ⟨(trimEndChar '/' (trimList url.data)).drop (j + (i + 3))⟩) ∧
        ((trimEndChar '/' (trimList url.data)).drop (j + (i + 3))).head? = some '/') ∧
      (findCharIdx '/' ((trimEndChar '/' (trimList url.data)).drop (i + 3)) = none →
        split_base_url url dflt = .ok (⟨trimEndChar '/' (trimList url.data)⟩, dflt)))
    ∧ split_base_url "https://example.com" "/api/v1" = .ok ("https://example.com", "/api/v1")
    ∧ split_base_url "https://example.com/ckrwl" "/api/v1" = .ok ("https://example.com", "/ckrwl") := by
  refine ⟨?_, rfl, rfl⟩
  intro i hi
  have ht : trimEndChar '/' (trimList url.data) ≠ [] := by
    intro h
    rw [h, show findSubstrIdx "://".data ([] : List Char) = none from rfl] at hi
    exact Option.noConfusion hi
  constructor
  · intro j hj
    have hhead : ((trimEndChar '/' (trimList url.data)).drop (j + (i + 3))).head? = some '/' := by
      obtain ⟨pre, rest, hsplit, hlen, -⟩ := findCharIdx_eq_some '/' _ j hj
      have hdd : ((trimEndChar '/' (trimList url.data)).drop (i + 3)).drop j =
          (trimEndChar '/' (trimList url.data)).drop (j + (i + 3)) := by
        rw [List.drop_drop, Nat.add_comm (i + 3) j]
      rw [← hdd, hsplit, ← hlen, List.drop_left]
      rfl
    have hne : (trimEndChar '/' (trimList url.data)).drop (j + (i + 3)) ≠ [] := by
      intro h
      rw [h] at hhead
      exact Option.noConfusion hhead
    refine ⟨?_, hhead⟩
    simp [split_base_url, ht, hi, hj, hne, hhead]
  · intro hj
    obtain ⟨d⟩ := dflt
    simp [split_base_url, ht, hi, hj]

/-- Claim C4, witness: -/
theorem C4_witness :
    split_base_url "https://example.com/x/y" "/d" = .ok ("https://example.com", "/x/y") := by
  have h := ((C4_split_base_url_split "https://example.com/x/y" "/d").1 5
    (by decide)).1 11 (by decide)
  exact h.1.trans (by rfl)

/-! ## Claim C6 — path-parameter collection -/

/-- Claim C6:  `collect_path_params` fails with a missing-required-argument
error (naming the flag of an offending Param) exactly when some declared
Param has no CLI-bound value and no applicable workspace fallback
(workspace-sourced name and environment value present); on success every
Param resolves to its CLI-bound value when present, and otherwise — only
possible for a workspace-sourced Param — to the environment workspace
value. -/
theorem C6_collect_path_params (ps : List Param) (cli : String → Option String)
    (env : Option String) :
    ((∃ e, collect_path_params cli env ps = .error e) ↔
      ∃ p ∈ ps, cli p.name = none ∧ (is_workspace_param p.name = false ∨ env = none))
    ∧ (∀ m, collect_path_params cli env ps = .ok m →
        ∀ p ∈ ps, (∀ v, cli p.name = some v → List.lookup p.name m = some v) ∧
          (cli p.name = none → is_workspace_param p.name = true ∧
            List.lookup p.name m = env))
    ∧ (∀ e, collect_path_params cli env ps = .error e →
        ∃ p ∈ ps, e = "missing required argument --" ++ p.flag ∧
          cli p.name = none ∧ (is_workspace_param p.name = false ∨ env = none)) := by
  induction ps with
  | nil =>
    refine ⟨?_, ?_, ?_⟩
    · simp only [collect_path_params]
      constructor
      · rintro ⟨e, he⟩
        exact Except.noConfusion he
      · rintro ⟨p, hp, -⟩
        exact absurd hp (List.not_mem_nil p)
    · intro m hm p hp
      exact absurd hp (List.not_mem_nil p)
    · intro e he
      exact Except.noConfusion he
  | cons p rest ih =>
    -- the resolved value of the head parameter
    have hstep : ∀ (q : Param),
        (if (cli q.name).isNone && is_workspace_param q.name then env
          else cli q.name) =
        (match cli q.name with
          | some v => some v
          | none => if is_workspace_param q.name then env else none) := by
      intro q
      cases hc : cli q.name with
      | some v => rfl
      | none =>
        by_cases hws : is_workspace_param q.name = true
        · simp [hws]
        · simp [Bool.eq_false_iff.mpr hws]
    cases hc : cli p.name with
    | some v0 =>
      have hval : collect_path_params cli env (p :: rest) =
          match collect_path_params cli env rest with
          | .error e => .error e
          | .ok m => .ok ((p.name, v0) :: m) := by
        rw [collect_path_params]
        rw [hstep p, hc]
      cases hrest : collect_path_params cli env rest with
      | error e' =>
        rw [hrest] at hval
        refine ⟨?_, ?_, ?_⟩
        · rw [hval]
          constructor
          · rintro ⟨e, he⟩
            obtain ⟨q, hq, hrest'⟩ := (ih.2.2 e' hrest)
            exact ⟨q, List.mem_cons_of_mem _ hq, hrest'.2.1, hrest'.2.2⟩
          · rintro ⟨q, hq, hq2⟩
            exact ⟨e', rfl⟩
        · intro m hm
          rw [hval] at hm
          exact Except.noConfusion hm
        · intro e he
          rw [hval] at he
          injection he with he'
          obtain ⟨q, hq, hrest'⟩ := ih.2.2 e' hrest
          refine ⟨q, List.mem_cons_of_mem _ hq, ?_, hrest'.2.1, hrest'.2.2⟩
          rw [← he']
          exact hrest'.1
      | ok m' =>
        rw [hrest] at hval
        refine ⟨?_, ?_, ?_⟩
        · rw [hval]
          constructor
          · rintro ⟨e, he⟩
            exact Except.noConfusion he
          · rintro ⟨q, hq, hq2, hq3⟩
            rcases List.mem_cons.mp hq with rfl | hqrest
            · rw [hc] at hq2
              exact Option.noConfusion hq2
            · obtain ⟨e, hes⟩ := ih.1.mpr ⟨q, hqrest, hq2, hq3⟩
              rw [hrest] at hes
              exact Except.noConfusion hes
        · intro m hm q hq
          rw [hval] at hm
          injection hm with hm'
          rcases List.mem_cons.mp hq with rfl | hqrest
          · constructor
            · intro w hw
              rw [hc] at hw
              injection hw with hvw
              rw [← hm', List.lookup, beq_self_eq_true]
              rw [hvw]
            · intro hnone
              rw [hc] at hnone
              exact Option.noConfusion hnone
          · have hq' := ih.2.1 m' hrest q hqrest
            by_cases hname : q.name = p.name
            · -- same name: the head entry shadows, but resolves identically
              constructor
              · intro w hw
                rw [← hm', List.lookup, hname, beq_self_eq_true]
                rw [hname, hc] at hw
                injection hw with hvw
                rw [hvw]
              · intro hnone
                rw [hname, hc] at hnone
                exact Option.noConfusion hnone
            · have hbeq : (q.name == p.name) = false :=
                beq_eq_false_iff_ne.mpr hname
              constructor
              · intro w hw
                rw [← hm', List.lookup, hbeq]
                exact hq'.1 w hw
              · intro hnone
                refine ⟨(hq'.2 hnone).1, ?_⟩
                rw [← hm', List.lookup, hbeq]
                exact (hq'.2 hnone).2
        · intro e he
          rw [hval] at he
          exact Except.noConfusion he
    | none =>
      by_cases hws : is_workspace_param p.name = true
      · by_cases henvn : env = none
        case pos =>
          have henv : env = none := henvn
          have hval : collect_path_params cli env (p :: rest) =
              .error ("missing required argument --" ++ p.flag) := by
            rw [collect_path_params]
            rw [hstep p, hc, if_pos hws, henv]
          refine ⟨?_, ?_, ?_⟩
          · rw [hval]
            constructor
            · rintro ⟨e, -⟩
              exact ⟨p, List.mem_cons_self _ _, hc, Or.inr henv⟩
            · rintro -
              exact ⟨_, rfl⟩
          · intro m hm
            rw [hval] at hm
            exact Except.noConfusion hm
          · intro e he
            rw [hval] at he
            injection he with he'
            exact ⟨p, List.mem_cons_self _ _, he'.symm, hc, Or.inr henv⟩
        case neg =>
          obtain ⟨ev, henv⟩ := Option.ne_none_iff_exists'.mp henvn
          have hval : collect_path_params cli env (p :: rest) =
              match collect_path_params cli env rest with
              | .error e => .error e
              | .ok m => .ok ((p.name, ev) :: m) := by
            rw [collect_path_params]
            rw [hstep p, hc, if_pos hws, henv]
          cases hrest : collect_path_params cli env rest with
          | error e' =>
            rw [hrest] at hval
            refine ⟨?_, ?_, ?_⟩
            · rw [hval]
              constructor
              · rintro ⟨e, he⟩
                obtain ⟨q, hq, hrest'⟩ := ih.2.2 e' hrest
                exact ⟨q, List.mem_cons_of_mem _ hq, hrest'.2.1, hrest'.2.2⟩
              · rintro ⟨q, hq, hq2⟩
                exact ⟨e', rfl⟩
            · intro m hm
              rw [hval] at hm
              exact Except.noConfusion hm
            · intro e he
              rw [hval] at he
              injection he with he'
              obtain ⟨q, hq, hrest'⟩ := ih.2.2 e' hrest
              refine ⟨q, List.mem_cons_of_mem _ hq, ?_, hrest'.2.1, hrest'.2.2⟩
              rw [← he']
              exact hrest'.1
          | ok m' =>
            rw [hrest] at hval
            refine ⟨?_, ?_, ?_⟩
            · rw [hval]
              constructor
              · rintro ⟨e, he⟩
                exact Except.noConfusion he
              · rintro ⟨q, hq, hq2, hq3⟩
                rcases List.mem_cons.mp hq with rfl | hqrest
                · rcases hq3 with hq3 | hq3
                  · rw [hws] at hq3
                    exact Bool.noConfusion hq3
                  · rw [henv] at hq3
                    exact Option.noConfusion hq3
                · obtain ⟨e, hes⟩ := ih.1.mpr ⟨q, hqrest, hq2, hq3⟩
                  rw [hrest] at hes
                  exact Except.noConfusion hes
            · intro m hm q hq
              rw [hval] at hm
              injection hm with hm'
              rcases List.mem_cons.mp hq with rfl | hqrest
              · constructor
                · intro w hw
                  rw [hc] at hw
                  exact Option.noConfusion hw
                · intro hnone
                  refine ⟨hws, ?_⟩
                  rw [← hm', List.lookup, beq_self_eq_true, henv]
              · have hq' := ih.2.1 m' hrest q hqrest
                by_cases hname : q.name = p.name
                · constructor
                  · intro w hw
                    rw [hname, hc] at hw
                    exact Option.noConfusion hw
                  · intro hnone
                    refine ⟨hname ▸ hws, ?_⟩
                    rw [← hm', List.lookup, hname, beq_self_eq_true, henv]
                · have hbeq : (q.name == p.name) = false :=
                    beq_eq_false_iff_ne.mpr hname
                  constructor
                  · intro w hw
                    rw [← hm', List.lookup, hbeq]
                    exact hq'.1 w hw
                  · intro hnone
                    refine ⟨(hq'.2 hnone).1, ?_⟩
                    rw [← hm', List.lookup, hbeq]
                    exact (hq'.2 hnone).2
            · intro e he
              rw [hval] at he
              exact Except.noConfusion he
      · have hws' : is_workspace_param p.name = false := Bool.eq_false_iff.mpr hws
        have hval : collect_path_params cli env (p :: rest) =
            .error ("missing required argument --" ++ p.flag) := by
          rw [collect_path_params]
          rw [hstep p, hc, hws']
          rfl
        refine ⟨?_, ?_, ?_⟩
        · rw [hval]
          constructor
          · rintro ⟨e, -⟩
            exact ⟨p, List.mem_cons_self _ _, hc, Or.inl hws'⟩
          · rintro -
            exact ⟨_, rfl⟩
        · intro m hm
          rw [hval] at hm
          exact Except.noConfusion hm
        · intro e he
          rw [hval] at he
          injection he with he'
          exact ⟨p, List.mem_cons_self _ _, he'.symm, hc, Or.inl hws'⟩

/-- Claim C6, witness: -/
theorem C6_witness :
    is_workspace_param "slug" = true ∧
    List.lookup "slug" [("slug", "ws"), ("project_id", "p1")] = some "ws" := by
  have h := (C6_collect_path_params [⟨"slug", "slug"⟩, ⟨"project_id", "project-id"⟩]
      (fun n => if n = "project_id" then some "p1" else none) (some "ws")).2.1
      [("slug", "ws"), ("project_id", "p1")] rfl ⟨"slug", "slug"⟩
      (List.mem_cons_self _ _)
  exact ⟨(h.2 rfl).1, (h.2 rfl).2⟩

/-! ## Claim C7 — slash-normalizing URL join -/

/-- Claim C7, counterexample:  The claim says `join_url` re-joins the
*non-empty* pieces with single slashes.  But when both the base path and
the final path trim to empty, the code emits `origin ++ "/"` (a trailing
slash although no piece carries one), and an empty origin still
contributes its leading position (yielding a leading `/`), so the output
is not the slash-join of the non-empty pieces. -/
theorem C7_counterexample :
    join_url "https://example.com" "" "" = "https://example.com/" ∧
    join_url "" "" "users" = "/users" :=
  ⟨rfl, rfl⟩

/-- Claim C7, amended:  `join_url` trims trailing slashes from the origin,
leading and trailing slashes from the base path, and leading slashes from
the final path segment, then joins the origin (always, even when empty)
with whichever of the trimmed base path and trimmed path are non-empty,
separated by single slashes — except that when both are empty the result
is the trimmed origin followed by a single `/`.  A trailing slash in the
final path argument survives, as in the claim's example. -/
theorem C7_join_url_slash_join (b bp p : String) :
    ((trimEndChar '/' (trimStartChar '/' bp.data) ≠ [] ∨
        trimStartChar '/' p.data ≠ []) →
      (join_url b bp p).data =
        (List.intersperse ['/']
          (trimEndChar '/' b.data ::
            List.filter (fun l => !l.isEmpty)
              [trimEndChar '/' (trimStartChar '/' bp.data),
               trimStartChar '/' p.data])).flatten)
    ∧ ((trimEndChar '/' (trimStartChar '/' bp.data) = [] ∧
          trimStartChar '/' p.data = []) →
        (join_url b bp p).data = trimEndChar '/' b.data ++ ['/'])
    ∧ join_url "https://example.com/" "/api/v1/" "users/" =
        "https://example.com/api/v1/users/" := by
  refine ⟨?_, ?_, rfl⟩
  · intro hne
    by_cases hbp : trimEndChar '/' (trimStartChar '/' bp.data) = []
    · have hp : trimStartChar '/' p.data ≠ [] := by
        rcases hne with hne | hne
        · exact absurd hbp hne
        · exact hne
      cases hpc : trimStartChar '/' p.data with
      | nil => exact absurd hpc hp
      | cons x xs =>
        simp only [join_url]
        rw [if_pos hbp]
        show trimEndChar '/' b.data ++ '/' :: trimStartChar '/' p.data = _
        rw [hbp, hpc]
        simp [List.filter, List.intersperse]
    · cases hbc : trimEndChar '/' (trimStartChar '/' bp.data) with
      | nil => exact absurd hbc hbp
      | cons y ys =>
        by_cases hp : trimStartChar '/' p.data = []
        · simp only [join_url]
          rw [if_neg hbp, if_pos hp]
          show trimEndChar '/' b.data ++ '/' ::
            trimEndChar '/' (trimStartChar '/' bp.data) = _
          rw [hbc, hp]
          simp [List.filter, List.intersperse]
        · cases hpc : trimStartChar '/' p.data with
          | nil => exact absurd hpc hp
          | cons x xs =>
            simp only [join_url]
            rw [if_neg hbp, if_neg hp]
            show (trimEndChar '/' b.data ++
                '/' :: trimEndChar '/' (trimStartChar '/' bp.data)) ++
              '/' :: trimStartChar '/' p.data = _
            rw [hbc, hpc]
            simp [List.filter, List.intersperse]
  · rintro ⟨hbp, hp⟩
    simp only [join_url]
    rw [if_pos hbp]
    show trimEndChar '/' b.data ++ '/' :: trimStartChar '/' p.data = _
    rw [hp]

/-- Claim C7, witness: -/
theorem C7_witness :
    (join_url "https://x" "/api/" "u").data =
      (List.intersperse ['/']
        (trimEndChar '/' "https://x".data ::
          List.filter (fun l => !l.isEmpty)
            [trimEndChar '/' (trimStartChar '/' "/api/".data),
             trimStartChar '/' "u".data])).flatten :=
  (C7_join_url_slash_join "https://x" "/api/" "u").1 (Or.inl (by decide))

/-! ## Claim C8 — query-pair validation -/

/-- Claim C8:  `parse_query_pair` splits its input on the first `=`; it
fails exactly when the trimmed key or the trimmed value is empty, and on
success returns the trimmed key/value pair.  When no `=` occurs the
value side is empty and the call fails.  The four concrete examples of
the claim hold. -/
theorem C8_parse_query_pair (s : String) :
    (∀ a b, s.data = a ++ '=' :: b → '=' ∉ a →
      ((parse_query_pair s).isOk = false ↔
        (trimList a = [] ∨ trimList b = [])) ∧
      (trimList a ≠ [] → trimList b ≠ [] →
        parse_query_pair s = .ok (⟨trimList a⟩, ⟨trimList b⟩)))
    ∧ ('=' ∉ s.data → (parse_query_pair s).isOk = false)
    ∧ parse_query_pair "a=b" = .ok ("a", "b")
    ∧ (parse_query_pair "a=").isOk = false
    ∧ (parse_query_pair "=b").isOk = false
    ∧ (parse_query_pair "ab").isOk = false := by
  refine ⟨?_, ?_, rfl, rfl, rfl, rfl⟩
  · intro a b hsab hna
    have hsplit : splitAtChar '=' s.data = some (a, b) := by
      rw [hsab]
      exact splitAtChar_append '=' a b hna
    constructor
    · by_cases hka : trimList a = []
      · simp [parse_query_pair, hsplit, hka, Except.isOk, Except.toBool]
      · by_cases hkb : trimList b = []
        · simp [parse_query_pair, hsplit, hka, hkb, Except.isOk, Except.toBool]
        · simp [parse_query_pair, hsplit, hka, hkb, Except.isOk, Except.toBool]
    · intro hka hkb
      simp [parse_query_pair, hsplit, hka, hkb]
  · intro hne
    have hsplit : splitAtChar '=' s.data = none :=
      (splitAtChar_eq_none_iff '=' s.data).mpr hne
    have htrivial : trimList ([] : List Char) = [] := rfl
    simp [parse_query_pair, hsplit, htrivial, Except.isOk, Except.toBool]

/-- Claim C8, witness: -/
theorem C8_witness : parse_query_pair "x=1" = .ok ("x", "1") := by
  have h := ((C8_parse_query_pair "x=1").1 "x".data "1".data rfl (by decide)).2
    (by decide) (by decide)
  exact h.trans (by rfl)

/-! ## Claim C9 — mutually exclusive body sources -/

/-- Claim C9:  With both an inline JSON body and a body file supplied,
`read_body` fails with the use-only-one-of conflict error for *every*
JSON parser and file reader — no parsing or file reading can influence
the result; with neither supplied it yields no body. -/
theorem C9_read_body (β : Type) (j f : String)
    (parse parse2 : String → Except String β)
    (readF readF2 : String → Except String String) :
    read_body (some j) (some f) parse readF =
      .error "use only one of --body-json or --body-file"
    ∧ read_body none none parse2 readF2 = (.ok none : Except String (Option β)) :=
  ⟨rfl, rfl⟩

/-! ## Claim C10 — whitespace trimming of query pairs -/

theorem collectQueryPairs_mem (qs : List String)
    (l : List (String × String)) (h : collectQueryPairs qs = .ok l) :
    ∀ kv ∈ l, ∃ s ∈ qs, parse_query_pair s = .ok kv := by
  induction qs generalizing l with
  | nil =>
    rw [collectQueryPairs] at h
    injection h with h'
    rw [← h']
    intro kv hkv
    exact absurd hkv (List.not_mem_nil kv)
  | cons q rest ih =>
    rw [collectQueryPairs] at h
    cases hq : parse_query_pair q with
    | error e => rw [hq] at h; exact Except.noConfusion h
    | ok kv0 =>
      rw [hq] at h
      cases hrest : collectQueryPairs rest with
      | error e => rw [hrest] at h; exact Except.noConfusion h
      | ok l' =>
        rw [hrest] at h
        injection h with h'
        rw [← h']
        intro kv hkv
        rcases List.mem_cons.mp hkv with rfl | hmem
        · exact ⟨q, List.mem_cons_self _ _, hq⟩
        · obtain ⟨s, hs, hps⟩ := ih l' hrest kv hmem
          exact ⟨s, List.mem_cons_of_mem _ hs, hps⟩

/-- Claim C10:  `parse_query_pair` trims surrounding whitespace from the
key as well as from the value (` a = b ` parses to `("a","b")`); every
successful result is already trimmed on both sides, and hence every
`--query`-derived entry of the outgoing query list carries no
surrounding whitespace. -/
theorem C10_query_pair_trimming (s : String) :
    parse_query_pair " a = b " = .ok ("a", "b")
    ∧ (∀ k v, parse_query_pair s = .ok (k, v) →
        trimList k.data = k.data ∧ trimList v.data = v.data)
    ∧ (∀ (qs : List String) (l : List (String × String)),
        build_query_params qs none [] none none = .ok l →
        ∀ kv ∈ l, trimList kv.1.data = kv.1.data ∧
          trimList kv.2.data = kv.2.data) := by
  have hmain : ∀ (u : String) (k v : String), parse_query_pair u = .ok (k, v) →
      trimList k.data = k.data ∧ trimList v.data = v.data := by
    intro u k v hkv
    rw [parse_query_pair] at hkv
    cases hsp : splitAtChar '=' u.data with
    | none =>
      rw [hsp] at hkv
      have htrivial : trimList ([] : List Char) = [] := rfl
      simp [htrivial] at hkv
    | some ab =>
      obtain ⟨a, b⟩ := ab
      rw [hsp] at hkv
      by_cases hcond : (trimList a = [] || trimList b = []) = true
      · rw [if_pos hcond] at hkv
        exact Except.noConfusion hkv
      · rw [if_neg hcond] at hkv
        injection hkv with hkv'
        injection hkv' with hk hv
        constructor
        · rw [← hk]
          exact trimList_idem a
        · rw [← hv]
          exact trimList_idem b
  refine ⟨rfl, hmain s, ?_⟩
  intro qs l hbq kv hkv
  rw [build_query_params] at hbq
  cases hcq : collectQueryPairs qs with
  | error e => rw [hcq] at hbq; exact Except.noConfusion hbq
  | ok pairs =>
    rw [hcq] at hbq
    injection hbq with hbq'
    have hl : l = pairs := by
      rw [← hbq']
      simp
    obtain ⟨u, -, hpu⟩ := collectQueryPairs_mem qs pairs hcq kv (hl ▸ hkv)
    obtain ⟨hk, hv⟩ := hmain u kv.1 kv.2 (by rw [hpu])
    exact ⟨hk, hv⟩

/-- Claim C10, witness: -/
theorem C10_witness :
    trimList ("a" : String).data = ("a" : String).data ∧
    trimList ("b" : String).data = ("b" : String).data :=
  (C10_query_pair_trimming " a = b ").2.1 "a" "b" rfl

end PlaneCli
